import Mathlib

/-!
Verification of the Cross-Dataset Concept Alignment Pipeline.

This file gives a shallow embedding, in Lean 4, of the pipeline's core
algorithms and proves the documented correctness properties against them:

* the `audit-merge-concepts` v2 reconciliation pass (conservation,
  first-wins double-consumption protection, within-generation disjointness,
  no-merge identity);
* the JSON brace-delimited recovery parser shared by the concept extractor
  (`audit-extract-concepts`) and the merger;
* the concept extractor's failure behaviour on unparseable model replies;
* the client-side pipeline orchestrator `runPipeline`
  (`src/hooks/useAuditPipeline.ts`): failure propagation, graph edge shape,
  best-effort graph writes, and progress-event monotonicity.

Each definition is translated directly from the corresponding source
function; the doc comment of a definition names the source it embeds.
-/

/- ### Part 1: merge reconciliation (audit-merge-concepts v2) -/

/-- ASCII lowercasing of a string, modelling JS `String.prototype.toLowerCase`
as used for the case-insensitive concept-label keys. -/
def lowerStr (s : String) : String := ⟨s.data.map Char.toLower⟩

/-- `UnifiedConcept` from the `audit-merge-concepts` v2 edge function:
a concept with per-dataset element-id lists.  The optional fields
(`d1Ids?`, `elementLabels?`) are modelled as always-present lists, matching
the code's `c.d1Ids || []` defaulting. -/
structure UnifiedConcept where
  label : String
  description : String
  d1Ids : List String
  d2Ids : List String
  elementLabels : List String
deriving DecidableEq, Repr

/-- The case-insensitive key under which a concept is registered:
`c.label.toLowerCase()`. -/
def conceptKey (c : UnifiedConcept) : String := lowerStr c.label

/-- One proposed merge group from the model reply
(`{sourceConcepts, mergedLabel, mergedDescription}`). -/
structure ProposedMerge where
  sourceConcepts : List String
  mergedLabel : String
  mergedDescription : String
deriving DecidableEq, Repr

/-- `MergeLogEntry` (`{from: [conceptLabel...], to: mergedLabel}`). -/
structure MergeLogEntry where
  «from» : List String
  «to» : String
deriving DecidableEq, Repr

/-- The `conceptByLabel` lookup map built by
`for (const c of concepts) conceptByLabel.set(c.label.toLowerCase(), c)`:
a later concept with the same lowercased label overwrites an earlier one,
so lookup returns the last match. -/
def conceptByLabel : List UnifiedConcept → String → Option UnifiedConcept
  | [], _ => none
  | c :: rest, k =>
    match conceptByLabel rest k with
    | some c' => some c'
    | none => if conceptKey c = k then some c else none

/-- `Set.add` on the `mergedLabels` set (membership-preserving insert;
the JS set's iteration order is never observed). -/
def jsSetAdd (s : List String) (k : String) : List String :=
  if k ∈ s then s else k :: s

/-- Helper for `jsDedup`: keep the first occurrence of each element,
given the set of elements already seen. -/
def jsDedupAux (seen : List String) : List String → List String
  | [] => []
  | a :: t => if a ∈ seen then jsDedupAux seen t else a :: jsDedupAux (a :: seen) t

/-- `[...new Set(arr)]`: deduplicate keeping first occurrences in order. -/
def jsDedup (l : List String) : List String := jsDedupAux [] l

/-- The label-resolution loop of one merge group
(`for (const label of (m.sourceConcepts || []))`): skip a label whose key is
already in `mergedLabels` (first-wins), skip a label with no matching
concept (hallucinated name), otherwise collect the concept and mark its key.
Returns the updated `mergedLabels` and the `validSources` list in order. -/
def resolveLabels (concepts : List UnifiedConcept) :
    List String → List String → List String × List UnifiedConcept
  | [], merged => (merged, [])
  | label :: rest, merged =>
    if lowerStr label ∈ merged then resolveLabels concepts rest merged
    else
      match conceptByLabel concepts (lowerStr label) with
      | some found =>
        ((resolveLabels concepts rest (jsSetAdd merged (lowerStr label))).1,
          found :: (resolveLabels concepts rest (jsSetAdd merged (lowerStr label))).2)
      | none => resolveLabels concepts rest merged

/-- The merged concept emitted for a group with ≥ 2 valid sources: ids and
element labels are the set-union (first-occurrence dedup) of the sources'
lists, label/description come from the model. -/
def mkMergedConcept (m : ProposedMerge) (validSources : List UnifiedConcept) :
    UnifiedConcept :=
  { label := m.mergedLabel
    description := m.mergedDescription
    d1Ids := jsDedup (validSources.map UnifiedConcept.d1Ids).flatten
    d2Ids := jsDedup (validSources.map UnifiedConcept.d2Ids).flatten
    elementLabels := jsDedup (validSources.map UnifiedConcept.elementLabels).flatten }

/-- State threaded through the reconciliation loop: the consumed-label set,
the output concepts emitted so far, and the merge log. -/
structure MergeState where
  mergedLabels : List String
  outputConcepts : List UnifiedConcept
  mergeLog : List MergeLogEntry
deriving DecidableEq, Repr

/-- Processing of one proposed merge group (`for (const m of parsed.merges)`
loop body): with ≥ 2 valid sources emit a merged concept and a log entry;
with exactly 1 valid source unmark that source's key so it passes through;
with 0 valid sources do nothing. -/
def processGroup (concepts : List UnifiedConcept) (s : MergeState)
    (m : ProposedMerge) : MergeState :=
  match resolveLabels concepts m.sourceConcepts s.mergedLabels with
  | (merged', v1 :: v2 :: vs) =>
    { mergedLabels := merged'
      outputConcepts := s.outputConcepts ++ [mkMergedConcept m (v1 :: v2 :: vs)]
      mergeLog := s.mergeLog ++
        [{ «from» := (v1 :: v2 :: vs).map UnifiedConcept.label, «to» := m.mergedLabel }] }
  | (merged', [v]) => { s with mergedLabels := merged'.erase (lowerStr v.label) }
  | (merged', []) => { s with mergedLabels := merged' }

/-- The loop over all proposed merge groups, in reply order. -/
def processMerges (concepts : List UnifiedConcept) :
    List ProposedMerge → MergeState → MergeState
  | [], s => s
  | m :: rest, s => processMerges concepts rest (processGroup concepts s m)

/-- The pass-through loop: every original concept whose key is not in the
final `mergedLabels` set is carried into the output unchanged, in input
order. -/
def passThrough (concepts : List UnifiedConcept) (merged : List String) :
    List UnifiedConcept :=
  concepts.filter (fun c => conceptKey c ∉ merged)

/-- The complete v2 reconciliation
(`audit-merge-concepts`, migration lines 451–523): process all proposed
merge groups starting from an empty state, then append the pass-through
concepts.  Returns `(outputConcepts, mergeLog)`.  An absent `merges` field
in the parsed reply is `parsed.merges || []`, i.e. the empty list. -/
def reconcile (concepts : List UnifiedConcept) (merges : List ProposedMerge) :
    List UnifiedConcept × List MergeLogEntry :=
  let s := processMerges concepts merges ⟨[], [], []⟩
  (s.outputConcepts ++ passThrough concepts s.mergedLabels, s.mergeLog)

/-- `concepts.reduce((sum, c) => sum + (c.d1Ids?.length || 0), 0)`. -/
def sumD1 (l : List UnifiedConcept) : Nat :=
  (l.map fun c => c.d1Ids.length).sum

/-- `concepts.reduce((sum, c) => sum + (c.d2Ids?.length || 0), 0)`. -/
def sumD2 (l : List UnifiedConcept) : Nat :=
  (l.map fun c => c.d2Ids.length).sum

/-- Generic per-projection id-count, used to prove the D1 and D2 sides of
conservation with one argument. -/
def sumIds (f : UnifiedConcept → List String) (l : List UnifiedConcept) : Nat :=
  (l.map fun c => (f c).length).sum

/-- Pairwise-disjointness of two concepts' id lists, on both sides. -/
def disjPair (a b : UnifiedConcept) : Prop :=
  a.d1Ids.Disjoint b.d1Ids ∧ a.d2Ids.Disjoint b.d2Ids

/-- Disjointness of string lists is decidable, so concrete witnesses can be
checked by `decide`. -/
instance (a b : List String) : Decidable (a.Disjoint b) :=
  decidable_of_iff (∀ x ∈ a, x ∉ b) Iff.rfl

instance (a b : UnifiedConcept) : Decidable (disjPair a b) :=
  inferInstanceAs (Decidable (_ ∧ _))

/-- Proof device for conservation: id-count of the concepts emitted so far
plus the id-count of the concepts that would pass through in the current
state. -/
def totalF (f : UnifiedConcept → List String) (concepts : List UnifiedConcept)
    (s : MergeState) : Nat :=
  sumIds f s.outputConcepts + sumIds f (passThrough concepts s.mergedLabels)

/-- Proof device for within-generation disjointness: the emitted concepts
are pairwise disjoint and disjoint from every not-yet-consumed input
concept. -/
def outInv (concepts : List UnifiedConcept) (s : MergeState) : Prop :=
  s.outputConcepts.Pairwise disjPair ∧
  ∀ o ∈ s.outputConcepts, ∀ c ∈ concepts,
    conceptKey c ∉ s.mergedLabels → disjPair o c


/- ### Part 2: JSON brace-delimited recovery (extractor and merger) -/

/-- `String.prototype.indexOf` for a single character, over the character
list of the reply: index of the first occurrence, or `none` for `-1`. -/
def jsIndexOf : List Char → Char → Option Nat
  | [], _ => none
  | c :: t, b => if c = b then some 0 else (jsIndexOf t b).map (· + 1)

/-- `String.prototype.lastIndexOf` for a single character: index of the
last occurrence, computed from the reversed list. -/
def jsLastIndexOf (l : List Char) (b : Char) : Option Nat :=
  match jsIndexOf l.reverse b with
  | some k => some (l.length - 1 - k)
  | none => none

/-- `rawText.slice(a, b)`: the characters with indices in `[a, b)`. -/
def sliceChars (l : List Char) (a b : Nat) : List Char := (l.take b).drop a

/-- The JSON recovery implemented identically by the extractor
(`audit-extract-concepts`, lines 977–993) and the merger (migration lines
436–449), over an abstract `JSON.parse` (`parse raw = some v` where
`JSON.parse` succeeds with value `v`, `none` where it throws): try the raw
reply; on failure locate the first `\x7b` and the last `\x7d` and, when
`firstBrace !== -1 && lastBrace > firstBrace`, reparse
`rawText.slice(firstBrace, lastBrace + 1)`; otherwise throw (`none`). -/
def recoverParse {α : Type} (parse : List Char → Option α) (raw : List Char) :
    Option α :=
  match parse raw with
  | some v => some v
  | none =>
    match jsIndexOf raw '{', jsLastIndexOf raw '}' with
    | some i, some j => if i < j then parse (sliceChars raw i (j + 1)) else none
    | some _, none => none
    | none, _ => none

/-- `ExtractedConcept` of `audit-extract-concepts`. -/
structure ExtractedConcept where
  label : String
  description : String
  elementIds : List String
deriving DecidableEq, Repr

/-- The parsed shape of the extractor's model reply:
`{ concepts?: ExtractedConcept[] }`; the field may be absent, which the
code handles with `parsed.concepts || []`. -/
structure ParsedExtract where
  concepts : Option (List ExtractedConcept)
deriving DecidableEq, Repr

/-- The JSON body of the extractor's HTTP response: `success`, the concept
list, and the error message of the catch-all handler. -/
structure ExtractResponse where
  success : Bool
  concepts : List ExtractedConcept
  error : Option String
deriving DecidableEq, Repr

/-- `result.candidates?.[0]?.content?.parts?.[0]?.text || "\x7b\x7d"`:
an absent or empty reply text is defaulted to the two-character text
`\x7b\x7d` (an empty JSON object). -/
def effectiveReplyText (replyText : Option (List Char)) : List Char :=
  match replyText with
  | some t => if t = [] then ['{', '}'] else t
  | none => ['{', '}']

/-- The extractor's parse-and-respond logic (`audit-extract-concepts`,
lines 972–1039): default the reply text, parse it with the brace-recovery
fallback, and answer `success: true` with `parsed.concepts || []`; a parse
failure after recovery throws, which the catch-all turns into
`success: false` with the error message. -/
def extractorRespond (parse : List Char → Option ParsedExtract)
    (replyText : Option (List Char)) : ExtractResponse :=
  match recoverParse parse (effectiveReplyText replyText) with
  | some parsed =>
    { success := true, concepts := parsed.concepts.getD [], error := none }
  | none =>
    { success := false, concepts := [],
      error := some "Failed to parse JSON from LLM response" }

/-- `JSON.parse` restricted to the single input `\x7b\x7d` (the empty
object, which has no `concepts` field); every other input is treated as a
parse failure.  This is the fragment of `JSON.parse` needed to evaluate
the extractor on an empty model reply. -/
def parseEmptyObj : List Char → Option ParsedExtract :=
  fun l => if l = ['{', '}'] then some ⟨none⟩ else none



/- ### Part 3: pipeline orchestrator (src/hooks/useAuditPipeline.ts) -/

/-- `PipelinePhase` of `useAuditPipeline.ts`. -/
inductive PipelinePhase
  | idle
  | creating_nodes
  | extracting_d1
  | extracting_d2
  | merging_concepts
  | building_graph
  | building_tesseract
  | generating_venn
  | completed
  | error
deriving DecidableEq, Repr

/-- `PipelineProgress`: one progress event as passed to `setProgress`. -/
structure PipelineProgress where
  phase : PipelinePhase
  message : String
  progress : Nat
  d1ConceptCount : Option Nat := none
  d2ConceptCount : Option Nat := none
  mergedCount : Option Nat := none
  tesseractTotal : Option Nat := none
deriving DecidableEq, Repr

/-- `Element` (`{id, label, content, category?}`). -/
structure Element where
  id : String
  label : String
  content : String
  category : Option String
deriving DecidableEq, Repr

/-- Client-side `Concept` (`{label, description, elementIds}`); named
`ClientConcept` here only because Mathlib already declares `Concept`. -/
structure ClientConcept where
  label : String
  description : String
  elementIds : List String
deriving DecidableEq, Repr

/-- `MergedConcept` as consumed by the client. -/
structure MergedConcept where
  mergedLabel : String
  mergedDescription : String
  d1ConceptLabels : List String
  d2ConceptLabels : List String
  d1Ids : List String
  d2Ids : List String
deriving DecidableEq, Repr

/-- The merge endpoint's reply after the client's field mapping
(`mergedConcepts`, and the unmerged concepts already converted to
`{label, description, elementIds := dXIds || []}`). -/
structure MergeApiResult where
  mergedConcepts : List MergedConcept
  unmergedD1Concepts : List ClientConcept
  unmergedD2Concepts : List ClientConcept
deriving DecidableEq, Repr

/-- Parameters of one `upsert_audit_graph_node_with_token` call (the
session/token/agent arguments, identical on every call, are omitted). -/
structure NodeParams where
  label : String
  description : String
  node_type : String
  source_dataset : String
  source_element_ids : List String
  color : String
  size : Nat
deriving DecidableEq, Repr

/-- Parameters of one `insert_audit_graph_edge_with_token` call. -/
structure EdgeCall where
  source_node_id : String
  target_node_id : String
  edge_type : String
  label : String
deriving DecidableEq, Repr

/-- A graph-node row as returned by `get_audit_graph_nodes_with_token`
(the fields the synthesis phase reads). -/
structure NodeRow where
  id : String
  node_type : String
  source_element_ids : List String
deriving DecidableEq, Repr

/-- The remote endpoints `runPipeline` can invoke, in invocation order. -/
inductive StageCall
  | extractD1
  | extractD2
  | mergeConcepts
  | buildTesseract
  | generateVenn
deriving DecidableEq, Repr

/-- Environment of one pipeline run: the outcome of every external
interaction.  `Except.error m` on a remote call means the corresponding
`await` threw with message `m` (network rejection, non-ok HTTP status or
`success:false` body — the code converts all three into a thrown `Error`
whose message is surfaced unchanged).  RPC session/graph writes never
throw; they return an error object which the code only logs. -/
structure PipelineEnv where
  abortFlag : Nat → Bool
  d1Extract : Except String (List ClientConcept)
  d2Extract : Except String (List ClientConcept)
  mergeCall : Except String MergeApiResult
  nodesFetchOk : Bool
  elemNodeOk : Element → Bool
  elemNodeId : Element → String
  conceptNode : NodeParams → Option String
  tessCall : Except String (Bool × List String)
  vennCall : Except String Unit

/-- The element lists of one run (`PipelineInput` minus the opaque
session/project/token identifiers). -/
structure PipelineInput where
  d1Elements : List Element
  d2Elements : List Element
deriving DecidableEq, Repr

/-- Everything observable about one `runPipeline` invocation: the emitted
progress events, the `update_audit_session` calls (status, phase), the
node-upsert and edge-insert calls, the remote stage invocations, and the
caught error, if any. -/
structure RunTrace where
  events : List PipelineProgress
  statusUpdates : List (String × Option String)
  nodeCalls : List NodeParams
  edgeCalls : List EdgeCall
  stagesCalled : List StageCall
  error : Option String
deriving DecidableEq, Repr

/-- `(element.content || "").slice(0, 500)`. -/
def jsSlice500 (s : String) : String := ⟨s.data.take 500⟩

/-- The D1 element-node upsert parameters (blue, size 15). -/
def d1NodeParams (e : Element) : NodeParams :=
  { label := e.label
    description := jsSlice500 e.content
    node_type := "d1_element"
    source_dataset := "dataset1"
    source_element_ids := [e.id]
    color := "#3b82f6"
    size := 15 }

/-- The D2 element-node upsert parameters (green, size 15). -/
def d2NodeParams (e : Element) : NodeParams :=
  { label := e.label
    description := jsSlice500 e.content
    node_type := "d2_element"
    source_dataset := "dataset2"
    source_element_ids := [e.id]
    color := "#22c55e"
    size := 15 }

/-- The node rows present in the (fresh) session when
`get_audit_graph_nodes_with_token` runs: the element upserts of phase 0
that succeeded, keyed as the database stores them. -/
def sessionElementRows (env : PipelineEnv) (input : PipelineInput) :
    List NodeRow :=
  (input.d1Elements.filter (fun e => env.elemNodeOk e)).map
      (fun e => ⟨env.elemNodeId e, "d1_element", [e.id]⟩)
    ++ (input.d2Elements.filter (fun e => env.elemNodeOk e)).map
      (fun e => ⟨env.elemNodeId e, "d2_element", [e.id]⟩)

/-- `allNodes?.find((n) => n.source_element_ids?.includes(id))`. -/
def findNode (nodes : Option (List NodeRow)) (x : String) : Option NodeRow :=
  match nodes with
  | none => none
  | some ns => ns.find? (fun n => x ∈ n.source_element_ids)

/-- The edge-insert calls of one `for (const id of ids)` loop: one edge of
the given type from the found element node to the concept node, skipping
ids whose node lookup fails. -/
def edgesForIds (nodes : Option (List NodeRow)) (cid : String) (ty : String)
    (ids : List String) : List EdgeCall :=
  ids.filterMap (fun x => (findNode nodes x).map
    (fun n => (⟨n.id, cid, ty, ty⟩ : EdgeCall)))

/-- The merged-concept node upsert parameters (purple, size 25,
`source_element_ids = [...d1Ids, ...d2Ids]`). -/
def mergedConceptNodeParams (c : MergedConcept) : NodeParams :=
  { label := c.mergedLabel
    description := c.mergedDescription
    node_type := "concept"
    source_dataset := "both"
    source_element_ids := c.d1Ids ++ c.d2Ids
    color := "#a855f7"
    size := 25 }

/-- The gap (unmerged D1) concept-node upsert parameters (red, size 22). -/
def gapNodeParams (c : ClientConcept) : NodeParams :=
  { label := c.label
    description := c.description
    node_type := "concept"
    source_dataset := "dataset1"
    source_element_ids := c.elementIds
    color := "#ef4444"
    size := 22 }

/-- The orphan (unmerged D2) concept-node upsert parameters (orange,
size 22). -/
def orphanNodeParams (c : ClientConcept) : NodeParams :=
  { label := c.label
    description := c.description
    node_type := "concept"
    source_dataset := "dataset2"
    source_element_ids := c.elementIds
    color := "#f59e0b"
    size := 22 }

/-- Edge inserts for one merged concept: only when the concept upsert
returned a row (`if (conceptNode?.id)`), `defines` edges for its `d1Ids`
then `implements` edges for its `d2Ids`. -/
def conceptEdgesOf (env : PipelineEnv) (nodes : Option (List NodeRow))
    (c : MergedConcept) : List EdgeCall :=
  match env.conceptNode (mergedConceptNodeParams c) with
  | some cid => edgesForIds nodes cid "defines" c.d1Ids
      ++ edgesForIds nodes cid "implements" c.d2Ids
  | none => []

/-- Edge inserts for one gap concept: `defines` edges from its D1
elements. -/
def gapEdgesOf (env : PipelineEnv) (nodes : Option (List NodeRow))
    (c : ClientConcept) : List EdgeCall :=
  match env.conceptNode (gapNodeParams c) with
  | some gid => edgesForIds nodes gid "defines" c.elementIds
  | none => []

/-- Edge inserts for one orphan concept: `implements` edges from its D2
elements. -/
def orphanEdgesOf (env : PipelineEnv) (nodes : Option (List NodeRow))
    (c : ClientConcept) : List EdgeCall :=
  match env.conceptNode (orphanNodeParams c) with
  | some oid => edgesForIds nodes oid "implements" c.elementIds
  | none => []

/-- The concept-node upsert calls of the graph phase, in loop order. -/
def graphNodeCalls (merged : List MergedConcept) (gaps orphans : List ClientConcept) :
    List NodeParams :=
  merged.map mergedConceptNodeParams ++ gaps.map gapNodeParams
    ++ orphans.map orphanNodeParams

/-- The edge-insert calls of the graph phase, in loop order. -/
def graphEdgeCalls (env : PipelineEnv) (nodes : Option (List NodeRow))
    (merged : List MergedConcept) (gaps orphans : List ClientConcept) :
    List EdgeCall :=
  (merged.map (conceptEdgesOf env nodes)).flatten
    ++ (gaps.map (gapEdgesOf env nodes)).flatten
    ++ (orphans.map (orphanEdgesOf env nodes)).flatten

/-- The catch block of `runPipeline`: report the error phase with the raw
message and progress 0, and mark the persisted session `failed` (no
phase argument is passed on this update). -/
def failTrace (msg : String) (events : List PipelineProgress)
    (status : List (String × Option String)) (nodeCalls : List NodeParams)
    (edgeCalls : List EdgeCall) (calls : List StageCall) : RunTrace :=
  { events := events ++ [⟨.error, msg, 0, none, none, none, none⟩]
    statusUpdates := status ++ [("failed", none)]
    nodeCalls := nodeCalls
    edgeCalls := edgeCalls
    stagesCalled := calls
    error := some msg }

/-- The full invocation order of the remote stages. -/
def allStageCalls : List StageCall :=
  [.extractD1, .extractD2, .mergeConcepts, .buildTesseract, .generateVenn]

def creatingMsg (n1 n2 : Nat) : String :=
  "Creating " ++ toString n1 ++ " D1 and " ++ toString n2 ++ " D2 nodes..."

def extractingMsg (n1 n2 : Nat) : String :=
  "Extracting concepts from " ++ toString n1 ++ " D1 and " ++ toString n2
    ++ " D2 elements..."

def mergingMsg (n1 n2 : Nat) : String :=
  "Merging " ++ toString n1 ++ " D1 and " ++ toString n2 ++ " D2 concepts..."

def buildingGraphMsg (n : Nat) : String :=
  "Creating " ++ toString n ++ " merged concept nodes and edges..."

def tesseractMsg (n : Nat) : String :=
  "Analyzing " ++ toString n ++ " merged concepts for alignment..."

/-- `runPipeline` of `useAuditPipeline.ts`, as a function of the run
environment: phase 0 creates one element node per input element (errors
only logged), sets the session `running`, then — separated by cooperative
abort checks numbered 1–5 in source order — extraction (both requests
launched together, D1's result checked first), merge, graph synthesis from
the fetched session nodes, tesseract (a non-ok response only logged,
`cells` defaulted to `[]`), venn (response ignored), and the `completed`
update and event; any thrown error is caught by `failTrace`. -/
def runPipeline (env : PipelineEnv) (input : PipelineInput) : RunTrace :=
  let ev0 : List PipelineProgress :=
    [⟨.creating_nodes,
      creatingMsg input.d1Elements.length input.d2Elements.length, 5,
      none, none, none, none⟩]
  let nodes0 := input.d1Elements.map d1NodeParams
    ++ input.d2Elements.map d2NodeParams
  let st0 : List (String × Option String) :=
    [("running", some "extracting_concepts")]
  if env.abortFlag 1 then failTrace "Aborted" ev0 st0 nodes0 [] []
  else
    let ev1 := ev0 ++ [⟨.extracting_d1,
      extractingMsg input.d1Elements.length input.d2Elements.length, 15,
      none, none, none, none⟩]
    let calls1 : List StageCall := [.extractD1, .extractD2]
    match env.d1Extract with
    | .error m => failTrace m ev1 st0 nodes0 [] calls1
    | .ok d1Concepts =>
      match env.d2Extract with
      | .error m => failTrace m ev1 st0 nodes0 [] calls1
      | .ok d2Concepts =>
        let ev2 := ev1 ++ [⟨.merging_concepts,
          mergingMsg d1Concepts.length d2Concepts.length, 35,
          some d1Concepts.length, some d2Concepts.length, none, none⟩]
        if env.abortFlag 2 then failTrace "Aborted" ev2 st0 nodes0 [] calls1
        else
          let calls2 := calls1 ++ [StageCall.mergeConcepts]
          match env.mergeCall with
          | .error m => failTrace m ev2 st0 nodes0 [] calls2
          | .ok mr =>
            let ev3 := ev2 ++ [⟨.building_graph,
              buildingGraphMsg mr.mergedConcepts.length, 50,
              none, none, some mr.mergedConcepts.length, none⟩]
            if env.abortFlag 3 then failTrace "Aborted" ev3 st0 nodes0 [] calls2
            else
              let allNodes : Option (List NodeRow) :=
                if env.nodesFetchOk then some (sessionElementRows env input)
                else none
              let nodes1 := nodes0 ++ graphNodeCalls mr.mergedConcepts
                mr.unmergedD1Concepts mr.unmergedD2Concepts
              let edges := graphEdgeCalls env allNodes mr.mergedConcepts
                mr.unmergedD1Concepts mr.unmergedD2Concepts
              let ev4 := ev3 ++ [⟨.building_tesseract,
                tesseractMsg mr.mergedConcepts.length, 65,
                none, none, none, some mr.mergedConcepts.length⟩]
              if env.abortFlag 4 then
                failTrace "Aborted" ev4 st0 nodes1 edges calls2
              else
                let calls3 := calls2 ++ [StageCall.buildTesseract]
                match env.tessCall with
                | .error m => failTrace m ev4 st0 nodes1 edges calls3
                | .ok _ =>
                  let ev5 := ev4 ++ [⟨.generating_venn,
                    "Generating final Venn analysis...", 85,
                    none, none, none, none⟩]
                  if env.abortFlag 5 then
                    failTrace "Aborted" ev5 st0 nodes1 edges calls3
                  else
                    let calls4 := calls3 ++ [StageCall.generateVenn]
                    match env.vennCall with
                    | .error m => failTrace m ev5 st0 nodes1 edges calls4
                    | .ok _ =>
                      { events := ev5 ++ [⟨.completed,
                          "Audit pipeline complete!", 100,
                          none, none, none, none⟩]
                        statusUpdates := st0 ++ [("completed", some "completed")]
                        nodeCalls := nodes1
                        edgeCalls := edges
                        stagesCalled := calls4
                        error := none }

/-- Boolean monotonicity of a progress sequence: each value is at least the
previous one. -/
def monoProg : List Nat → Bool
  | [] => true
  | [_] => true
  | a :: b :: t => a ≤ b && monoProg (b :: t)

/-- A run environment in which every remote stage succeeds trivially and
every graph write fails: used to witness that write failures alone never
fail a run. -/
def allWritesFailEnv : PipelineEnv :=
  { abortFlag := fun _ => false
    d1Extract := .ok []
    d2Extract := .ok []
    mergeCall := .ok ⟨[⟨"M", "", [], [], ["x"], ["y"]⟩], [], []⟩
    nodesFetchOk := false
    elemNodeOk := fun _ => false
    elemNodeId := fun e => e.id
    conceptNode := fun _ => none
    tessCall := .ok (false, [])
    vennCall := .ok () }

/-- A run environment whose merge stage throws: used as the counterexample
run for progress monotonicity and as the fatal-failure witness. -/
def mergeFailsEnv : PipelineEnv :=
  { abortFlag := fun _ => false
    d1Extract := .ok []
    d2Extract := .ok []
    mergeCall := .error "boom"
    nodesFetchOk := true
    elemNodeOk := fun _ => true
    elemNodeId := fun e => e.id
    conceptNode := fun _ => none
    tessCall := .ok (true, [])
    vennCall := .ok () }

/-- A run environment in which the merge output has one merged concept,
one gap and one orphan, over a two-element input: used to witness the
graph-edge shape theorem. -/
def edgesWitnessEnv : PipelineEnv :=
  { abortFlag := fun _ => false
    d1Extract := .ok []
    d2Extract := .ok []
    mergeCall := .ok ⟨[⟨"M", "", [], [], ["a1"], ["b1"]⟩],
      [⟨"G", "", ["a1"]⟩], [⟨"O", "", ["b1"]⟩]⟩
    nodesFetchOk := true
    elemNodeOk := fun _ => true
    elemNodeId := fun e => "node-" ++ e.id
    conceptNode := fun p => some ("c-" ++ p.label)
    tessCall := .ok (true, [])
    vennCall := .ok () }

/-- The two-element input used by the graph-edge witness. -/
def edgesWitnessInput : PipelineInput :=
  { d1Elements := [⟨"a1", "A1", "", none⟩]
    d2Elements := [⟨"b1", "B1", "", none⟩] }


/- ### Theorems -/

/-- C10: if the parsed reply proposes no merges (`merges` empty or absent),
reconciliation is the identity: the output concept list equals the input
element-for-element in order, and the merge log is empty. -/
theorem reconcile_no_merges_identity (concepts : List UnifiedConcept) :
    reconcile concepts [] = (concepts, []) := by
  simp [reconcile, processMerges, passThrough, List.filter_eq_self]

theorem jsSetAdd_not_mem {s : List String} {k : String} (h : k ∉ s) :
    jsSetAdd s k = k :: s := by
  simp [jsSetAdd, h]

theorem mem_jsDedupAux (x : String) (l : List String) :
    ∀ seen, x ∈ jsDedupAux seen l ↔ x ∈ l ∧ x ∉ seen := by
  induction l with
  | nil => intro seen; simp [jsDedupAux]
  | cons a t ih =>
    intro seen
    by_cases ha : a ∈ seen
    · rw [jsDedupAux, if_pos ha, ih seen]
      constructor
      · exact fun ⟨hx, hs⟩ => ⟨List.mem_cons_of_mem a hx, hs⟩
      · rintro ⟨hx, hs⟩
        rcases List.mem_cons.mp hx with h | h
        · exact absurd (h ▸ ha) hs
        · exact ⟨h, hs⟩
    · rw [jsDedupAux, if_neg ha]
      constructor
      · intro hx
        rcases List.mem_cons.mp hx with h | h
        · subst h; exact ⟨List.mem_cons_self _ _, ha⟩
        · have h' := (ih (a :: seen)).mp h
          exact ⟨List.mem_cons_of_mem a h'.1,
            fun hs => h'.2 (List.mem_cons_of_mem a hs)⟩
      · rintro ⟨hx, hs⟩
        rcases List.mem_cons.mp hx with h | h
        · subst h; exact List.mem_cons_self _ _
        · by_cases hxa : x = a
          · subst hxa; exact List.mem_cons_self _ _
          · refine List.mem_cons_of_mem a ((ih (a :: seen)).mpr ⟨h, ?_⟩)
            intro hmem
            rcases List.mem_cons.mp hmem with h' | h'
            · exact hxa h'
            · exact hs h'

theorem jsDedupAux_eq_self (l : List String) :
    ∀ seen, l.Nodup → (∀ x ∈ l, x ∉ seen) → jsDedupAux seen l = l := by
  induction l with
  | nil => intro seen _ _; rfl
  | cons a t ih =>
    intro seen hnd hdis
    have ha : a ∉ seen := hdis a (List.mem_cons_self a t)
    rw [jsDedupAux, if_neg ha]
    congr 1
    refine ih (a :: seen) (List.nodup_cons.mp hnd).2 ?_
    intro x hx hmem
    rcases List.mem_cons.mp hmem with h | h
    · exact (List.nodup_cons.mp hnd).1 (h ▸ hx)
    · exact hdis x (List.mem_cons_of_mem a hx) h

theorem jsDedup_eq_self {l : List String} (h : l.Nodup) : jsDedup l = l :=
  jsDedupAux_eq_self l [] h (by simp)

theorem mem_jsDedup {x : String} {l : List String} : x ∈ jsDedup l ↔ x ∈ l := by
  rw [jsDedup, mem_jsDedupAux]
  simp

theorem conceptByLabel_some {concepts : List UnifiedConcept} {k : String}
    {c : UnifiedConcept} (h : conceptByLabel concepts k = some c) :
    c ∈ concepts ∧ conceptKey c = k := by
  induction concepts with
  | nil => simp [conceptByLabel] at h
  | cons a rest ih =>
    rw [conceptByLabel] at h
    cases hr : conceptByLabel rest k with
    | some c' =>
      rw [hr] at h
      obtain rfl : c' = c := by simpa using h
      obtain ⟨hm, hk⟩ := ih hr
      exact ⟨List.mem_cons_of_mem a hm, hk⟩
    | none =>
      rw [hr] at h
      split_ifs at h with hk
      obtain rfl : a = c := by simpa using h
      exact ⟨List.mem_cons_self _ _, hk⟩

theorem resolveLabels_spec (concepts : List UnifiedConcept) (labels : List String) :
    ∀ merged : List String,
      (resolveLabels concepts labels merged).1
          = ((resolveLabels concepts labels merged).2.map conceptKey).reverse ++ merged
        ∧ ((resolveLabels concepts labels merged).2.map conceptKey).Nodup
        ∧ ∀ v ∈ (resolveLabels concepts labels merged).2,
            v ∈ concepts ∧ conceptKey v ∉ merged := by
  induction labels with
  | nil => intro merged; simp [resolveLabels]
  | cons label rest ih =>
    intro merged
    by_cases hk : lowerStr label ∈ merged
    · rw [resolveLabels, if_pos hk]
      exact ih merged
    · rw [resolveLabels, if_neg hk]
      cases hcb : conceptByLabel concepts (lowerStr label) with
      | none => exact ih merged
      | some found =>
        have hkey : conceptKey found = lowerStr label := (conceptByLabel_some hcb).2
        obtain ⟨h1, h2, h3⟩ := ih (lowerStr label :: merged)
        simp only [jsSetAdd_not_mem hk]
        refine ⟨?_, ?_, ?_⟩
        · show (resolveLabels concepts rest (lowerStr label :: merged)).1
            = ((found :: (resolveLabels concepts rest (lowerStr label :: merged)).2).map
                conceptKey).reverse ++ merged
          rw [h1, List.map_cons, List.reverse_cons, hkey, List.append_assoc,
            List.singleton_append]
        · show ((found :: (resolveLabels concepts rest (lowerStr label :: merged)).2).map
              conceptKey).Nodup
          rw [List.map_cons, List.nodup_cons]
          refine ⟨?_, h2⟩
          intro hmem
          obtain ⟨v, hv, hkv⟩ := List.mem_map.mp hmem
          have hv2 := (h3 v hv).2
          rw [hkv, hkey] at hv2
          exact hv2 (List.mem_cons_self _ _)
        · show ∀ v ∈ found :: (resolveLabels concepts rest (lowerStr label :: merged)).2,
            v ∈ concepts ∧ conceptKey v ∉ merged
          intro v hv
          rcases List.mem_cons.mp hv with h | h
          · subst h
            exact ⟨(conceptByLabel_some hcb).1, by rw [hkey]; exact hk⟩
          · obtain ⟨hc, hnm⟩ := h3 v h
            exact ⟨hc, fun hmem => hnm (List.mem_cons_of_mem _ hmem)⟩

theorem processGroup_small {concepts : List UnifiedConcept} {s : MergeState}
    {m : ProposedMerge}
    (h : (resolveLabels concepts m.sourceConcepts s.mergedLabels).2.length ≤ 1) :
    processGroup concepts s m = s := by
  obtain ⟨h1, _, _⟩ := resolveLabels_spec concepts m.sourceConcepts s.mergedLabels
  cases hr : (resolveLabels concepts m.sourceConcepts s.mergedLabels).2 with
  | nil =>
    rw [hr] at h1
    simp only [List.map_nil, List.reverse_nil, List.nil_append] at h1
    have hpair : resolveLabels concepts m.sourceConcepts s.mergedLabels
        = (s.mergedLabels, []) := by
      conv_lhs => rw [← Prod.mk.eta (p := resolveLabels concepts m.sourceConcepts
        s.mergedLabels)]
      rw [h1, hr]
    rw [processGroup, hpair]
  | cons v vs =>
    cases vs with
    | nil =>
      rw [hr] at h1
      simp only [List.map_cons, List.map_nil, List.reverse_cons, List.reverse_nil,
        List.nil_append, List.cons_append] at h1
      have hpair : resolveLabels concepts m.sourceConcepts s.mergedLabels
          = (lowerStr v.label :: s.mergedLabels, [v]) := by
        conv_lhs => rw [← Prod.mk.eta (p := resolveLabels concepts m.sourceConcepts
          s.mergedLabels)]
        rw [h1, hr]
        exact rfl
      rw [processGroup, hpair]
      show { s with mergedLabels :=
        (lowerStr v.label :: s.mergedLabels).erase (lowerStr v.label) } = s
      rw [List.erase_cons_head]
    | cons v2 vs2 =>
      rw [hr] at h
      simp at h

/-- C2: first-wins double-consumption protection in one reconciliation pass:
(1) a source label whose key is already consumed is skipped by resolution;
(2) a merge group resolving to fewer than 2 valid members leaves the state
completely unchanged — no merged concept, no log entry, and (for a
1-member group) the member is unmarked again; (3) hence a pass consisting
of such a group passes every concept through unchanged. -/
theorem mergeGroup_first_wins (concepts : List UnifiedConcept) (m : ProposedMerge)
    (s : MergeState) (label : String) (rest : List String) :
    (lowerStr label ∈ s.mergedLabels →
      resolveLabels concepts (label :: rest) s.mergedLabels
        = resolveLabels concepts rest s.mergedLabels)
    ∧ ((resolveLabels concepts m.sourceConcepts s.mergedLabels).2.length ≤ 1 →
      processGroup concepts s m = s)
    ∧ ((resolveLabels concepts m.sourceConcepts []).2.length ≤ 1 →
      reconcile concepts [m] = (concepts, [])) := by
  refine ⟨fun h => by rw [resolveLabels, if_pos h], fun h => processGroup_small h,
    fun h => ?_⟩
  show (let s' := processMerges concepts [m] ⟨[], [], []⟩
    (s'.outputConcepts ++ passThrough concepts s'.mergedLabels, s'.mergeLog)) = _
  rw [show processMerges concepts [m] ⟨[], [], []⟩
      = processGroup concepts ⟨[], [], []⟩ m from rfl,
    processGroup_small (s := ⟨[], [], []⟩) h]
  simp [passThrough, List.filter_eq_self]

/-- C2 witness: a concrete instantiation — with concept list `[A]`, the
label `"Z"` (already consumed in the state) is skipped, and the group
`["A"]` resolving to a single member is a no-op and the concept passes
through. -/
theorem mergeGroup_first_wins_witness :
    resolveLabels [⟨"A", "", ["x"], [], []⟩] ["Z", "A"] ["z"]
        = resolveLabels [⟨"A", "", ["x"], [], []⟩] ["A"] ["z"]
      ∧ processGroup [⟨"A", "", ["x"], [], []⟩] ⟨["z"], [], []⟩ ⟨["A"], "X", ""⟩
        = ⟨["z"], [], []⟩
      ∧ reconcile [⟨"A", "", ["x"], [], []⟩] [⟨["A"], "X", ""⟩]
        = ([⟨"A", "", ["x"], [], []⟩], []) := by
  have h := mergeGroup_first_wins [⟨"A", "", ["x"], [], []⟩] ⟨["A"], "X", ""⟩
    ⟨["z"], [], []⟩ "Z" ["A"]
  exact ⟨h.1 (by decide), h.2.1 (by decide), h.2.2 (by decide)⟩

theorem sumIds_nil (f : UnifiedConcept → List String) : sumIds f [] = 0 := rfl

theorem sumIds_cons (f : UnifiedConcept → List String) (a : UnifiedConcept)
    (l : List UnifiedConcept) :
    sumIds f (a :: l) = (f a).length + sumIds f l := by
  simp [sumIds]

theorem sumIds_append (f : UnifiedConcept → List String)
    (a b : List UnifiedConcept) :
    sumIds f (a ++ b) = sumIds f a + sumIds f b := by
  simp [sumIds]

theorem sumIds_filter_split (f : UnifiedConcept → List String)
    (p q r : UnifiedConcept → Prop) [DecidablePred p] [DecidablePred q]
    [DecidablePred r] (l : List UnifiedConcept)
    (h : ∀ c ∈ l, (p c ↔ (q c ∨ r c)) ∧ ¬(q c ∧ r c)) :
    sumIds f (l.filter fun c => p c) =
      sumIds f (l.filter fun c => q c) + sumIds f (l.filter fun c => r c) := by
  induction l with
  | nil => simp [sumIds]
  | cons a t ih =>
    have ha := h a (List.mem_cons_self a t)
    have ht := ih fun c hc => h c (List.mem_cons_of_mem a hc)
    by_cases hq : q a
    · have hp : p a := ha.1.mpr (Or.inl hq)
      have hr : ¬ r a := fun hra => ha.2 ⟨hq, hra⟩
      simp [List.filter_cons, hp, hq, hr, sumIds_cons, ht]
      omega
    · by_cases hr : r a
      · have hp : p a := ha.1.mpr (Or.inr hr)
        simp [List.filter_cons, hp, hq, hr, sumIds_cons, ht]
        omega
      · have hp : ¬ p a := fun hpa => by
          rcases ha.1.mp hpa with hx | hx
          · exact hq hx
          · exact hr hx
        simp [List.filter_cons, hp, hq, hr, sumIds_cons, ht]

theorem filter_key_single {concepts : List UnifiedConcept} {v : UnifiedConcept}
    (hkeys : (concepts.map conceptKey).Nodup) (hv : v ∈ concepts) :
    concepts.filter (fun c => conceptKey c = conceptKey v) = [v] := by
  induction concepts with
  | nil => cases hv
  | cons a t ih =>
    rw [List.map_cons, List.nodup_cons] at hkeys
    obtain ⟨hna, hnt⟩ := hkeys
    rcases List.mem_cons.mp hv with h | h
    · subst h
      rw [List.filter_cons, if_pos (by simp)]
      have hrest : t.filter (fun c => conceptKey c = conceptKey v) = [] := by
        rw [List.filter_eq_nil_iff]
        intro c hc hkc
        rw [decide_eq_true_eq] at hkc
        exact hna (hkc ▸ List.mem_map_of_mem conceptKey hc)
      rw [hrest]
    · have hne : ¬ (conceptKey a = conceptKey v) := by
        intro he
        exact hna (he ▸ List.mem_map_of_mem conceptKey h)
      rw [List.filter_cons, if_neg (by simpa using hne)]
      exact ih hnt h

theorem sumIds_filter_keys (f : UnifiedConcept → List String)
    {concepts : List UnifiedConcept}
    (hkeys : (concepts.map conceptKey).Nodup) :
    ∀ valid : List UnifiedConcept, (valid.map conceptKey).Nodup →
      (∀ v ∈ valid, v ∈ concepts) →
      sumIds f (concepts.filter fun c => conceptKey c ∈ valid.map conceptKey) =
        sumIds f valid := by
  intro valid
  induction valid with
  | nil =>
    intro _ _
    simp [sumIds]
  | cons v vs ih =>
    intro hnd hmem
    have hsplit := sumIds_filter_split f
      (fun c => conceptKey c ∈ (v :: vs).map conceptKey)
      (fun c => conceptKey c = conceptKey v)
      (fun c => conceptKey c ∈ vs.map conceptKey)
      concepts ?side
    case side =>
      intro c _
      constructor
      · simp [List.mem_cons]
      · rintro ⟨he, hm⟩
        rw [List.map_cons, List.nodup_cons] at hnd
        exact hnd.1 (he ▸ hm)
    rw [hsplit, filter_key_single hkeys (hmem v (List.mem_cons_self v vs)),
      ih (by rw [List.map_cons] at hnd; exact hnd.of_cons)
        (fun u hu => hmem u (List.mem_cons_of_mem v hu)),
      sumIds_cons, sumIds_cons, sumIds_nil]
    omega

theorem valid_flatten_nodup (f : UnifiedConcept → List String)
    {concepts valid : List UnifiedConcept}
    (hnod : ∀ c ∈ concepts, (f c).Nodup)
    (hdisj : ∀ a ∈ concepts, ∀ b ∈ concepts, a ≠ b → (f a).Disjoint (f b))
    (hvnd : valid.Nodup) (hvmem : ∀ v ∈ valid, v ∈ concepts) :
    ((valid.map f).flatten).Nodup := by
  rw [List.nodup_flatten]
  constructor
  · intro l hl
    obtain ⟨v, hv, rfl⟩ := List.mem_map.mp hl
    exact hnod v (hvmem v hv)
  · rw [List.pairwise_map]
    exact hvnd.imp_of_mem fun {a b} ha hb hne =>
      hdisj a (hvmem a ha) b (hvmem b hb) hne

theorem mkMergedConcept_len (f : UnifiedConcept → List String)
    (hf : ∀ (m : ProposedMerge) (vs : List UnifiedConcept),
      f (mkMergedConcept m vs) = jsDedup ((vs.map f).flatten))
    {concepts valid : List UnifiedConcept}
    (hnod : ∀ c ∈ concepts, (f c).Nodup)
    (hdisj : ∀ a ∈ concepts, ∀ b ∈ concepts, a ≠ b → (f a).Disjoint (f b))
    (hvnd : valid.Nodup) (hvmem : ∀ v ∈ valid, v ∈ concepts)
    (m : ProposedMerge) :
    (f (mkMergedConcept m valid)).length = sumIds f valid := by
  rw [hf, jsDedup_eq_self (valid_flatten_nodup f hnod hdisj hvnd hvmem),
    List.length_flatten]
  simp [sumIds, Function.comp_def]

theorem processGroup_totalF (f : UnifiedConcept → List String)
    (hf : ∀ (m : ProposedMerge) (vs : List UnifiedConcept),
      f (mkMergedConcept m vs) = jsDedup ((vs.map f).flatten))
    {concepts : List UnifiedConcept}
    (hkeys : (concepts.map conceptKey).Nodup)
    (hnod : ∀ c ∈ concepts, (f c).Nodup)
    (hdisj : ∀ a ∈ concepts, ∀ b ∈ concepts, a ≠ b → (f a).Disjoint (f b))
    (s : MergeState) (m : ProposedMerge) :
    totalF f concepts (processGroup concepts s m) = totalF f concepts s := by
  obtain ⟨h1, h2, h3⟩ := resolveLabels_spec concepts m.sourceConcepts s.mergedLabels
  cases hr : (resolveLabels concepts m.sourceConcepts s.mergedLabels).2 with
  | nil => rw [processGroup_small (by rw [hr]; simp)]
  | cons v1 vs =>
    cases vs with
    | nil => rw [processGroup_small (by rw [hr]; simp)]
    | cons v2 vs2 =>
      rw [hr] at h1 h2 h3
      have hpair : resolveLabels concepts m.sourceConcepts s.mergedLabels
          = ((resolveLabels concepts m.sourceConcepts s.mergedLabels).1,
            v1 :: v2 :: vs2) := by
        conv_lhs => rw [← Prod.mk.eta (p := resolveLabels concepts m.sourceConcepts
          s.mergedLabels)]
        rw [hr]
      rw [totalF, processGroup, hpair]
      show sumIds f (s.outputConcepts ++ [mkMergedConcept m (v1 :: v2 :: vs2)])
          + sumIds f (passThrough concepts
            (resolveLabels concepts m.sourceConcepts s.mergedLabels).1)
        = totalF f concepts s
      have hvmem : ∀ v ∈ v1 :: v2 :: vs2, v ∈ concepts := fun v hv => (h3 v hv).1
      have hvnm : ∀ v ∈ v1 :: v2 :: vs2, conceptKey v ∉ s.mergedLabels :=
        fun v hv => (h3 v hv).2
      have hvnd : (v1 :: v2 :: vs2).Nodup := h2.of_map conceptKey
      have hmemR1 : ∀ x : String,
          x ∈ (resolveLabels concepts m.sourceConcepts s.mergedLabels).1
            ↔ x ∈ (v1 :: v2 :: vs2).map conceptKey ∨ x ∈ s.mergedLabels := by
        intro x
        rw [h1]
        simp only [List.mem_append, List.mem_reverse]
      have hsplit := sumIds_filter_split f
        (fun c => conceptKey c ∉ s.mergedLabels)
        (fun c => conceptKey c ∉ (resolveLabels concepts m.sourceConcepts
          s.mergedLabels).1)
        (fun c => conceptKey c ∈ (v1 :: v2 :: vs2).map conceptKey)
        concepts ?side
      case side =>
        intro c _
        constructor
        · constructor
          · intro hnm
            by_cases hcK : conceptKey c ∈ (v1 :: v2 :: vs2).map conceptKey
            · exact Or.inr hcK
            · exact Or.inl fun hmem => (hmemR1 (conceptKey c)).mp hmem
                |>.elim hcK hnm
          · rintro (hq | hrr)
            · exact fun hmem => hq ((hmemR1 (conceptKey c)).mpr (Or.inr hmem))
            · obtain ⟨v, hv, hkv⟩ := List.mem_map.mp hrr
              rw [← hkv]
              exact hvnm v hv
        · rintro ⟨hq, hrr⟩
          exact hq ((hmemR1 (conceptKey c)).mpr (Or.inl hrr))
      have hkeyssum := sumIds_filter_keys f hkeys (v1 :: v2 :: vs2) h2 hvmem
      rw [totalF, sumIds_append, sumIds_cons, sumIds_nil,
        mkMergedConcept_len f hf hnod hdisj hvnd hvmem m]
      show sumIds f s.outputConcepts + (sumIds f (v1 :: v2 :: vs2) + 0)
          + sumIds f (concepts.filter fun c => conceptKey c ∉ (resolveLabels concepts
            m.sourceConcepts s.mergedLabels).1)
        = sumIds f s.outputConcepts
          + sumIds f (concepts.filter fun c => conceptKey c ∉ s.mergedLabels)
      rw [hsplit, hkeyssum]
      omega

theorem processMerges_totalF (f : UnifiedConcept → List String)
    (hf : ∀ (m : ProposedMerge) (vs : List UnifiedConcept),
      f (mkMergedConcept m vs) = jsDedup ((vs.map f).flatten))
    {concepts : List UnifiedConcept}
    (hkeys : (concepts.map conceptKey).Nodup)
    (hnod : ∀ c ∈ concepts, (f c).Nodup)
    (hdisj : ∀ a ∈ concepts, ∀ b ∈ concepts, a ≠ b → (f a).Disjoint (f b)) :
    ∀ (merges : List ProposedMerge) (s : MergeState),
      totalF f concepts (processMerges concepts merges s) = totalF f concepts s := by
  intro merges
  induction merges with
  | nil => intro s; rfl
  | cons m rest ih =>
    intro s
    rw [processMerges, ih (processGroup concepts s m),
      processGroup_totalF f hf hkeys hnod hdisj s m]

theorem reconcile_sumIds (f : UnifiedConcept → List String)
    (hf : ∀ (m : ProposedMerge) (vs : List UnifiedConcept),
      f (mkMergedConcept m vs) = jsDedup ((vs.map f).flatten))
    {concepts : List UnifiedConcept} (merges : List ProposedMerge)
    (hkeys : (concepts.map conceptKey).Nodup)
    (hnod : ∀ c ∈ concepts, (f c).Nodup)
    (hdisj : ∀ a ∈ concepts, ∀ b ∈ concepts, a ≠ b → (f a).Disjoint (f b)) :
    sumIds f (reconcile concepts merges).1 = sumIds f concepts := by
  show sumIds f ((processMerges concepts merges ⟨[], [], []⟩).outputConcepts
    ++ passThrough concepts (processMerges concepts merges ⟨[], [], []⟩).mergedLabels)
    = sumIds f concepts
  rw [sumIds_append]
  have h := processMerges_totalF f hf hkeys hnod hdisj merges ⟨[], [], []⟩
  rw [totalF, totalF] at h
  simp only [MergeState.outputConcepts, MergeState.mergedLabels] at h
  rw [h]
  simp [sumIds, passThrough, List.filter_eq_self]

/-- C1 (amended): the merge reconciliation conserves the total element-id
count, provided the input concept list satisfies the generation invariants
the pipeline maintains (pairwise distinct case-insensitive labels,
duplicate-free id lists, pairwise disjoint id sets): the sum of `|d1Ids|`
plus the sum of `|d2Ids|` over the output equals the same sum over the
input.  Without those invariants the defensive `new Set` dedup of the code
can drop ids (see the counterexample). -/
theorem reconcile_conservation (concepts : List UnifiedConcept)
    (merges : List ProposedMerge)
    (hkeys : (concepts.map conceptKey).Nodup)
    (hnd1 : ∀ c ∈ concepts, c.d1Ids.Nodup)
    (hnd2 : ∀ c ∈ concepts, c.d2Ids.Nodup)
    (hdisj : concepts.Pairwise disjPair) :
    sumD1 (reconcile concepts merges).1 + sumD2 (reconcile concepts merges).1
      = sumD1 concepts + sumD2 concepts := by
  have hsym : Symmetric disjPair := fun a b h => ⟨h.1.symm, h.2.symm⟩
  have hall := hdisj.forall hsym
  have e1 : sumIds (fun c => c.d1Ids) (reconcile concepts merges).1
      = sumIds (fun c => c.d1Ids) concepts :=
    reconcile_sumIds (fun c => c.d1Ids) (fun _ _ => rfl) merges hkeys hnd1
      (fun a ha b hb hne => (hall ha hb hne).1)
  have e2 : sumIds (fun c => c.d2Ids) (reconcile concepts merges).1
      = sumIds (fun c => c.d2Ids) concepts :=
    reconcile_sumIds (fun c => c.d2Ids) (fun _ _ => rfl) merges hkeys hnd2
      (fun a ha b hb hne => (hall ha hb hne).2)
  show sumIds (fun c => c.d1Ids) (reconcile concepts merges).1
      + sumIds (fun c => c.d2Ids) (reconcile concepts merges).1
    = sumIds (fun c => c.d1Ids) concepts + sumIds (fun c => c.d2Ids) concepts
  rw [e1, e2]

/-- C1 witness: the conservation theorem applied to a concrete well-formed
input (two concepts, one real merge): 2 ids in, 2 ids out. -/
theorem reconcile_conservation_witness :
    sumD1 (reconcile [⟨"A", "", ["x"], [], []⟩, ⟨"B", "", ["y"], ["p"], []⟩]
        [⟨["A", "B"], "AB", ""⟩]).1
      + sumD2 (reconcile [⟨"A", "", ["x"], [], []⟩, ⟨"B", "", ["y"], ["p"], []⟩]
        [⟨["A", "B"], "AB", ""⟩]).1
    = sumD1 [⟨"A", "", ["x"], [], []⟩, ⟨"B", "", ["y"], ["p"], []⟩]
      + sumD2 [⟨"A", "", ["x"], [], []⟩, ⟨"B", "", ["y"], ["p"], []⟩] :=
  reconcile_conservation
    [⟨"A", "", ["x"], [], []⟩, ⟨"B", "", ["y"], ["p"], []⟩]
    [⟨["A", "B"], "AB", ""⟩]
    (by decide) (by decide) (by decide) (by decide)

/-- C1 counterexample: on an input violating the within-generation
disjointness invariant (two concepts both carrying d1 id `"x"`), a single
proposed merge of the two loses one id to the `new Set` dedup: the output
total is 1 while the input total is 2.  So conservation does not hold for
*every* input list of concepts, as the claim states. -/
theorem reconcile_conservation_cex :
    sumD1 (reconcile [⟨"A", "", ["x"], [], []⟩, ⟨"B", "", ["x"], [], []⟩]
        [⟨["A", "B"], "AB", ""⟩]).1
      + sumD2 (reconcile [⟨"A", "", ["x"], [], []⟩, ⟨"B", "", ["x"], [], []⟩]
        [⟨["A", "B"], "AB", ""⟩]).1
    ≠ sumD1 [⟨"A", "", ["x"], [], []⟩, ⟨"B", "", ["x"], [], []⟩]
      + sumD2 [⟨"A", "", ["x"], [], []⟩, ⟨"B", "", ["x"], [], []⟩] := by
  decide

theorem mem_mkMerged_d1 {y : String} {m : ProposedMerge}
    {vs : List UnifiedConcept} :
    y ∈ (mkMergedConcept m vs).d1Ids ↔ ∃ v ∈ vs, y ∈ v.d1Ids := by
  simp [mkMergedConcept, mem_jsDedup, List.mem_flatten]

theorem mem_mkMerged_d2 {y : String} {m : ProposedMerge}
    {vs : List UnifiedConcept} :
    y ∈ (mkMergedConcept m vs).d2Ids ↔ ∃ v ∈ vs, y ∈ v.d2Ids := by
  simp [mkMergedConcept, mem_jsDedup, List.mem_flatten]

theorem processGroup_outInv {concepts : List UnifiedConcept}
    (hdisj : concepts.Pairwise disjPair) {s : MergeState} {m : ProposedMerge}
    (hinv : outInv concepts s) : outInv concepts (processGroup concepts s m) := by
  have hsym : Symmetric disjPair := fun a b h => ⟨h.1.symm, h.2.symm⟩
  have hall := hdisj.forall hsym
  obtain ⟨h1, h2, h3⟩ := resolveLabels_spec concepts m.sourceConcepts s.mergedLabels
  cases hr : (resolveLabels concepts m.sourceConcepts s.mergedLabels).2 with
  | nil =>
    rw [processGroup_small (by rw [hr]; simp)]
    exact hinv
  | cons v1 vs =>
    cases vs with
    | nil =>
      rw [processGroup_small (by rw [hr]; simp)]
      exact hinv
    | cons v2 vs2 =>
      rw [hr] at h1 h2 h3
      have hpair : resolveLabels concepts m.sourceConcepts s.mergedLabels
          = ((resolveLabels concepts m.sourceConcepts s.mergedLabels).1,
            v1 :: v2 :: vs2) := by
        conv_lhs => rw [← Prod.mk.eta (p := resolveLabels concepts m.sourceConcepts
          s.mergedLabels)]
        rw [hr]
      rw [processGroup, hpair]
      show outInv concepts
        { mergedLabels := (resolveLabels concepts m.sourceConcepts s.mergedLabels).1
          outputConcepts := s.outputConcepts ++ [mkMergedConcept m (v1 :: v2 :: vs2)]
          mergeLog := s.mergeLog
            ++ [MergeLogEntry.mk ((v1 :: v2 :: vs2).map UnifiedConcept.label)
              m.mergedLabel] }
      have hmemR1 : ∀ x : String,
          x ∈ (resolveLabels concepts m.sourceConcepts s.mergedLabels).1
            ↔ x ∈ (v1 :: v2 :: vs2).map conceptKey ∨ x ∈ s.mergedLabels := by
        intro x
        rw [h1]
        simp only [List.mem_append, List.mem_reverse]
      refine ⟨?_, ?_⟩
      · rw [List.pairwise_append]
        refine ⟨hinv.1, List.pairwise_singleton _ _, ?_⟩
        intro o ho b hb
        rw [List.mem_singleton] at hb
        subst hb
        constructor
        · intro y hyo hyM
          obtain ⟨v, hv, hyv⟩ := mem_mkMerged_d1.mp hyM
          exact (hinv.2 o ho v (h3 v hv).1 (h3 v hv).2).1 hyo hyv
        · intro y hyo hyM
          obtain ⟨v, hv, hyv⟩ := mem_mkMerged_d2.mp hyM
          exact (hinv.2 o ho v (h3 v hv).1 (h3 v hv).2).2 hyo hyv
      · intro o ho c hc hkc
        have hkcm : conceptKey c ∉ s.mergedLabels :=
          fun hm => hkc ((hmemR1 (conceptKey c)).mpr (Or.inr hm))
        have hkcK : conceptKey c ∉ (v1 :: v2 :: vs2).map conceptKey :=
          fun hK => hkc ((hmemR1 (conceptKey c)).mpr (Or.inl hK))
        rcases List.mem_append.mp ho with ho' | ho'
        · exact hinv.2 o ho' c hc hkcm
        · rw [List.mem_singleton] at ho'
          subst ho'
          constructor
          · intro y hyM hyc
            obtain ⟨v, hv, hyv⟩ := mem_mkMerged_d1.mp hyM
            by_cases hvc : v = c
            · exact hkcK (hvc ▸ List.mem_map_of_mem conceptKey hv)
            · exact (hall (h3 v hv).1 hc hvc).1 hyv hyc
          · intro y hyM hyc
            obtain ⟨v, hv, hyv⟩ := mem_mkMerged_d2.mp hyM
            by_cases hvc : v = c
            · exact hkcK (hvc ▸ List.mem_map_of_mem conceptKey hv)
            · exact (hall (h3 v hv).1 hc hvc).2 hyv hyc

theorem processMerges_outInv {concepts : List UnifiedConcept}
    (hdisj : concepts.Pairwise disjPair) :
    ∀ (merges : List ProposedMerge) (s : MergeState),
      outInv concepts s → outInv concepts (processMerges concepts merges s) := by
  intro merges
  induction merges with
  | nil => intro s h; exact h
  | cons m rest ih =>
    intro s h
    exact ih (processGroup concepts s m) (processGroup_outInv hdisj h)

/-- C4: if the input concepts have pairwise disjoint `d1Ids` and pairwise
disjoint `d2Ids`, then any two distinct concepts of the merge output also
have disjoint `d1Ids` and disjoint `d2Ids` — no element id is counted twice
within one generation. -/
theorem reconcile_within_generation_disjoint (concepts : List UnifiedConcept)
    (merges : List ProposedMerge) (hdisj : concepts.Pairwise disjPair) :
    (reconcile concepts merges).1.Pairwise disjPair := by
  have hinit : outInv concepts ⟨[], [], []⟩ := ⟨List.Pairwise.nil, by simp⟩
  have hfin := processMerges_outInv hdisj merges ⟨[], [], []⟩ hinit
  show ((processMerges concepts merges ⟨[], [], []⟩).outputConcepts
    ++ passThrough concepts
      (processMerges concepts merges ⟨[], [], []⟩).mergedLabels).Pairwise disjPair
  rw [List.pairwise_append]
  refine ⟨hfin.1, hdisj.sublist (List.filter_sublist concepts), ?_⟩
  intro o ho c hc
  have hc' := List.mem_filter.mp hc
  exact hfin.2 o ho c hc'.1 (by simpa using hc'.2)

/-- C4 witness: the disjointness theorem applied to a concrete disjoint
input with one real merge. -/
theorem reconcile_within_generation_disjoint_witness :
    (reconcile [⟨"A", "", ["x"], [], []⟩, ⟨"B", "", ["y"], ["p"], []⟩,
        ⟨"C", "", ["z"], [], []⟩] [⟨["A", "B"], "AB", ""⟩]).1.Pairwise disjPair :=
  reconcile_within_generation_disjoint
    [⟨"A", "", ["x"], [], []⟩, ⟨"B", "", ["y"], ["p"], []⟩, ⟨"C", "", ["z"], [], []⟩]
    [⟨["A", "B"], "AB", ""⟩] (by decide)

theorem jsIndexOf_append_of_not_mem {b : Char} {p : List Char}
    (hp : b ∉ p) (q : List Char) :
    jsIndexOf (p ++ q) b = (jsIndexOf q b).map (· + p.length) := by
  induction p with
  | nil =>
    simp only [List.nil_append, List.length_nil]
    cases jsIndexOf q b <;> simp
  | cons c t ih =>
    have hcb : ¬ (c = b) := fun h => hp (h ▸ List.mem_cons_self c t)
    rw [List.cons_append, jsIndexOf, if_neg hcb,
      ih (fun h => hp (List.mem_cons_of_mem c h))]
    cases jsIndexOf q b <;> simp
    omega

theorem jsIndexOf_cons_self (b : Char) (t : List Char) :
    jsIndexOf (b :: t) b = some 0 := by
  rw [jsIndexOf, if_pos rfl]

theorem jsIndexOf_first_brace {p j s : List Char} (hp : '{' ∉ p)
    (hj : j.head? = some '{') :
    jsIndexOf (p ++ j ++ s) '{' = some p.length := by
  obtain ⟨j1, rfl⟩ : ∃ j1, j = '{' :: j1 := by
    cases j with
    | nil => simp at hj
    | cons a t =>
      rw [List.head?_cons] at hj
      obtain rfl : a = '{' := by simpa using hj
      exact ⟨t, rfl⟩
  rw [List.append_assoc, jsIndexOf_append_of_not_mem hp, List.cons_append,
    jsIndexOf_cons_self]
  simp

theorem jsLastIndexOf_last_brace {p j s : List Char} (hs : '}' ∉ s)
    (hj : j.getLast? = some '}') :
    jsLastIndexOf (p ++ j ++ s) '}' = some (p.length + j.length - 1) := by
  have hne : j ≠ [] := by
    intro h
    rw [h] at hj
    cases hj
  obtain ⟨j1, rfl⟩ : ∃ j1, j = j1 ++ ['}'] := by
    have hlast' : j.getLast hne = '}' := by
      rw [List.getLast?_eq_getLast j hne] at hj
      simpa using hj
    exact ⟨j.dropLast, by
      conv_lhs => rw [← List.dropLast_append_getLast hne]
      rw [hlast']⟩
  have hidx : jsIndexOf ((p ++ (j1 ++ ['}']) ++ s).reverse) '}'
      = some s.length := by
    have hrev : (p ++ (j1 ++ ['}']) ++ s).reverse
        = s.reverse ++ ('}' :: (j1.reverse ++ p.reverse)) := by
      simp
    rw [hrev, jsIndexOf_append_of_not_mem (by simpa using hs),
      jsIndexOf_cons_self]
    simp
  simp only [jsLastIndexOf, hidx]
  congr 1
  simp only [List.length_append, List.length_cons, List.length_nil]
  omega

theorem sliceChars_middle (p j s : List Char) (hj : j ≠ []) :
    sliceChars (p ++ j ++ s) p.length (p.length + j.length - 1 + 1) = j := by
  have hlen : 1 ≤ j.length := by
    cases j with
    | nil => exact absurd rfl hj
    | cons a t => simp
  have h1 : p.length + j.length - 1 + 1 = (p ++ j).length := by
    rw [List.length_append]
    omega
  rw [sliceChars, h1, List.take_left, List.drop_left]

/-- C5: the brace-delimited JSON recovery shared by the extractor and the
merger.  For a model reply `p ++ j ++ s` where `j` is a JSON object text
(starting with the opening brace and ending with the closing brace), the
prefix contains no opening brace and the suffix no closing brace (e.g.
markdown fencing or prose): if direct parsing of the decorated reply fails,
the recovery parses exactly `j` and returns the same value as parsing the
clean `j` alone, which is also what `recoverParse` returns on the clean
reply.  And a reply with no brace-delimited substring (no opening brace
strictly before the last closing brace) whose direct parse fails makes the
parser fail with an error (`none`). -/
theorem recoverParse_spec {α : Type} (parse : List Char → Option α)
    (p j s : List Char) (v : α) (hp : '{' ∉ p) (hs : '}' ∉ s)
    (hhead : j.head? = some '{') (hlast : j.getLast? = some '}')
    (hclean : parse j = some v) :
    (parse (p ++ j ++ s) = none →
      recoverParse parse (p ++ j ++ s) = some v)
    ∧ recoverParse parse j = some v
    ∧ ∀ raw : List Char, parse raw = none →
        (∀ i k, jsIndexOf raw '{' = some i → jsLastIndexOf raw '}' = some k →
          ¬ i < k) →
        recoverParse parse raw = none := by
  have hjne : j ≠ [] := by
    cases j with
    | nil => simp at hhead
    | cons a t => simp
  have hjlen : 2 ≤ j.length := by
    cases j with
    | nil => simp at hhead
    | cons a t =>
      cases t with
      | nil =>
        rw [List.head?_cons] at hhead
        obtain rfl : a = '{' := by simpa using hhead
        rw [show ('{' :: ([] : List Char)).getLast? = some '{' from rfl] at hlast
        exact absurd hlast (by decide)
      | cons b t2 => simp
  refine ⟨fun hfail => ?_, ?_, fun raw hraw hno => ?_⟩
  · simp only [recoverParse, hfail, jsIndexOf_first_brace hp hhead,
      jsLastIndexOf_last_brace hs hlast]
    rw [if_pos (show p.length < p.length + j.length - 1 by omega),
      sliceChars_middle p j s hjne]
    exact hclean
  · simp only [recoverParse, hclean]
  · simp only [recoverParse, hraw]
    cases hfb : jsIndexOf raw '{' with
    | none => rfl
    | some i =>
      cases hlb : jsLastIndexOf raw '}' with
      | none => rfl
      | some k =>
        have hik : ¬ i < k := hno i k hfb hlb
        simp [hik]

/-- C5 witness: the recovery theorem applied to a concrete toy parser and
the decorated reply `"ok " ++ "\x7b1\x7d" ++ " end"`. -/
theorem recoverParse_spec_witness :
    (recoverParse
        (fun l => if l = ['{', '1', '}'] then some 1 else none)
        (['o', 'k', ' '] ++ ['{', '1', '}'] ++ [' ', 'e', 'n', 'd'])
      = some 1)
    ∧ recoverParse (fun l => if l = ['{', '1', '}'] then some 1 else none)
        ['{', '1', '}'] = some 1 := by
  have h := recoverParse_spec
    (fun l => if l = ['{', '1', '}'] then some 1 else none)
    ['o', 'k', ' '] ['{', '1', '}'] [' ', 'e', 'n', 'd'] 1
    (by decide) (by decide) (by decide) (by decide) (by decide)
  exact ⟨h.1 (by decide), h.2.1⟩

/-- C3 (amended): whenever the *effective* reply text — the model reply,
with an empty or missing reply defaulted to the two-character empty JSON
object by `... || "\x7b\x7d"` — cannot be parsed even after brace-delimited
recovery, the extractor answers a dataset-scoped failure (`success: false`
with an error message and no concepts), never a successful response.  (An
empty or missing model reply, however, is defaulted to the empty-object
text before parsing, so it produces a *successful* response with an empty
concept set — see the counterexample.) -/
theorem extractor_fails_on_unparseable
    (parse : List Char → Option ParsedExtract)
    (replyText : Option (List Char))
    (h : recoverParse parse (effectiveReplyText replyText) = none) :
    extractorRespond parse replyText
      = ⟨false, [], some "Failed to parse JSON from LLM response"⟩ := by
  rw [extractorRespond, h]

/-- C3 witness: the amended theorem at a concrete unparseable reply. -/
theorem extractor_fails_on_unparseable_witness :
    extractorRespond (fun _ => none) (some ['o', 'o', 'p', 's'])
      = ⟨false, [], some "Failed to parse JSON from LLM response"⟩ :=
  extractor_fails_on_unparseable (fun _ => none) (some ['o', 'o', 'p', 's'])
    (by decide)

/-- C3 counterexample: an *empty* model reply is defaulted to the
empty-object text, which parses (here `parseEmptyObj` is exactly
`JSON.parse` on that input: an object with no `concepts` field), and the
extractor answers `success: true` with an empty concept set — contradicting
the claim that in no case an empty model reply becomes a successful
response carrying an empty concept set. -/
theorem extractor_empty_reply_cex :
    (extractorRespond parseEmptyObj (some [])).success = true
    ∧ (extractorRespond parseEmptyObj (some [])).concepts = [] := by
  decide

theorem runPipeline_cases (env : PipelineEnv) (input : PipelineInput) :
    ((runPipeline env input).error = none
      ∧ (runPipeline env input).statusUpdates.getLast?
          = some ("completed", some "completed")
      ∧ (runPipeline env input).stagesCalled = allStageCalls
      ∧ (runPipeline env input).events.map PipelineProgress.progress
          = [5, 15, 35, 50, 65, 85, 100])
    ∨ (∃ m, (runPipeline env input).error = some m
      ∧ (runPipeline env input).events.getLast?
          = some ⟨.error, m, 0, none, none, none, none⟩
      ∧ (runPipeline env input).statusUpdates.getLast? = some ("failed", none)
      ∧ ∃ n, (runPipeline env input).stagesCalled = allStageCalls.take n) := by
  cases h1 : env.abortFlag 1 with
  | true =>
    right
    exact ⟨"Aborted", by simp [runPipeline, h1, failTrace],
      by simp [runPipeline, h1, failTrace],
      by simp [runPipeline, h1, failTrace], 0,
      by simp [runPipeline, h1, failTrace, allStageCalls]⟩
  | false =>
  cases hd1 : env.d1Extract with
  | error m =>
    right
    exact ⟨m, by simp [runPipeline, h1, hd1, failTrace],
      by simp [runPipeline, h1, hd1, failTrace],
      by simp [runPipeline, h1, hd1, failTrace], 2,
      by simp [runPipeline, h1, hd1, failTrace, allStageCalls]⟩
  | ok d1C =>
  cases hd2 : env.d2Extract with
  | error m =>
    right
    exact ⟨m, by simp [runPipeline, h1, hd1, hd2, failTrace],
      by simp [runPipeline, h1, hd1, hd2, failTrace],
      by simp [runPipeline, h1, hd1, hd2, failTrace], 2,
      by simp [runPipeline, h1, hd1, hd2, failTrace, allStageCalls]⟩
  | ok d2C =>
  cases h2 : env.abortFlag 2 with
  | true =>
    right
    exact ⟨"Aborted", by simp [runPipeline, h1, hd1, hd2, h2, failTrace],
      by simp [runPipeline, h1, hd1, hd2, h2, failTrace],
      by simp [runPipeline, h1, hd1, hd2, h2, failTrace], 2,
      by simp [runPipeline, h1, hd1, hd2, h2, failTrace, allStageCalls]⟩
  | false =>
  cases hm : env.mergeCall with
  | error m =>
    right
    exact ⟨m, by simp [runPipeline, h1, hd1, hd2, h2, hm, failTrace],
      by simp [runPipeline, h1, hd1, hd2, h2, hm, failTrace],
      by simp [runPipeline, h1, hd1, hd2, h2, hm, failTrace], 3,
      by simp [runPipeline, h1, hd1, hd2, h2, hm, failTrace, allStageCalls]⟩
  | ok mr =>
  cases h3 : env.abortFlag 3 with
  | true =>
    right
    exact ⟨"Aborted", by simp [runPipeline, h1, hd1, hd2, h2, hm, h3, failTrace],
      by simp [runPipeline, h1, hd1, hd2, h2, hm, h3, failTrace],
      by simp [runPipeline, h1, hd1, hd2, h2, hm, h3, failTrace], 3,
      by simp [runPipeline, h1, hd1, hd2, h2, hm, h3, failTrace, allStageCalls]⟩
  | false =>
  cases h4 : env.abortFlag 4 with
  | true =>
    right
    exact ⟨"Aborted",
      by simp [runPipeline, h1, hd1, hd2, h2, hm, h3, h4, failTrace],
      by simp [runPipeline, h1, hd1, hd2, h2, hm, h3, h4, failTrace],
      by simp [runPipeline, h1, hd1, hd2, h2, hm, h3, h4, failTrace], 3,
      by simp [runPipeline, h1, hd1, hd2, h2, hm, h3, h4, failTrace, allStageCalls]⟩
  | false =>
  cases ht : env.tessCall with
  | error m =>
    right
    exact ⟨m,
      by simp [runPipeline, h1, hd1, hd2, h2, hm, h3, h4, ht, failTrace],
      by simp [runPipeline, h1, hd1, hd2, h2, hm, h3, h4, ht, failTrace],
      by simp [runPipeline, h1, hd1, hd2, h2, hm, h3, h4, ht, failTrace], 4,
      by simp [runPipeline, h1, hd1, hd2, h2, hm, h3, h4, ht, failTrace,
        allStageCalls]⟩
  | ok tr =>
  cases h5 : env.abortFlag 5 with
  | true =>
    right
    exact ⟨"Aborted",
      by simp [runPipeline, h1, hd1, hd2, h2, hm, h3, h4, ht, h5, failTrace],
      by simp [runPipeline, h1, hd1, hd2, h2, hm, h3, h4, ht, h5, failTrace],
      by simp [runPipeline, h1, hd1, hd2, h2, hm, h3, h4, ht, h5, failTrace], 4,
      by simp [runPipeline, h1, hd1, hd2, h2, hm, h3, h4, ht, h5, failTrace,
        allStageCalls]⟩
  | false =>
  cases hv : env.vennCall with
  | error m =>
    right
    exact ⟨m,
      by simp [runPipeline, h1, hd1, hd2, h2, hm, h3, h4, ht, h5, hv, failTrace],
      by simp [runPipeline, h1, hd1, hd2, h2, hm, h3, h4, ht, h5, hv, failTrace],
      by simp [runPipeline, h1, hd1, hd2, h2, hm, h3, h4, ht, h5, hv, failTrace], 5,
      by simp [runPipeline, h1, hd1, hd2, h2, hm, h3, h4, ht, h5, hv, failTrace,
        allStageCalls]⟩
  | ok u =>
    left
    refine ⟨by simp [runPipeline, h1, hd1, hd2, h2, hm, h3, h4, ht, h5, hv],
      by simp [runPipeline, h1, hd1, hd2, h2, hm, h3, h4, ht, h5, hv],
      by simp [runPipeline, h1, hd1, hd2, h2, hm, h3, h4, ht, h5, hv, allStageCalls],
      by simp [runPipeline, h1, hd1, hd2, h2, hm, h3, h4, ht, h5, hv]⟩

/-- C6: whenever any stage of `runPipeline` raises a fatal failure (failed
extraction, failed merge, a thrown tesseract/venn fetch, or abort), the
remaining stages are skipped (the invoked stages are a prefix of the full
invocation order), the last reported progress event has phase `error`,
progress 0 and the raw failure message, and the persisted session status is
set to `failed`. -/
theorem runPipeline_fatal_failure (env : PipelineEnv) (input : PipelineInput)
    (m : String) (h : (runPipeline env input).error = some m) :
    (runPipeline env input).events.getLast?
        = some ⟨.error, m, 0, none, none, none, none⟩
      ∧ (runPipeline env input).statusUpdates.getLast? = some ("failed", none)
      ∧ ∃ n, (runPipeline env input).stagesCalled = allStageCalls.take n := by
  rcases runPipeline_cases env input with ⟨h0, _⟩ | ⟨m', hm', he, hs, n, hc⟩
  · rw [h0] at h
    cases h
  · rw [hm'] at h
    obtain rfl : m' = m := by injection h
    exact ⟨he, hs, n, hc⟩

/-- C6 witness: a run whose merge stage throws `"boom"` ends with the error
event carrying `"boom"`, a `failed` session update, and only the first
three stage invocations. -/
theorem runPipeline_fatal_failure_witness :
    (runPipeline mergeFailsEnv ⟨[], []⟩).events.getLast?
        = some ⟨.error, "boom", 0, none, none, none, none⟩
      ∧ (runPipeline mergeFailsEnv ⟨[], []⟩).statusUpdates.getLast?
        = some ("failed", none)
      ∧ ∃ n, (runPipeline mergeFailsEnv ⟨[], []⟩).stagesCalled
        = allStageCalls.take n :=
  runPipeline_fatal_failure mergeFailsEnv ⟨[], []⟩ "boom" (by decide)

/-- C9 (amended): on a run that completes successfully the progress
percentages of the emitted event sequence are monotonically increasing
(5, 15, 35, 50, 65, 85, 100); the claim does not hold for failing runs,
whose terminal error event resets progress to 0 (see the
counterexample). -/
theorem runPipeline_progress_monotone (env : PipelineEnv)
    (input : PipelineInput) (h : (runPipeline env input).error = none) :
    monoProg ((runPipeline env input).events.map PipelineProgress.progress)
      = true := by
  rcases runPipeline_cases env input with ⟨_, _, _, hp⟩ | ⟨m, hm, _⟩
  · rw [hp]
    rfl
  · rw [hm] at h
    cases h

/-- C9 witness: the monotonicity theorem at a concrete successful run. -/
theorem runPipeline_progress_monotone_witness :
    monoProg ((runPipeline allWritesFailEnv ⟨[], []⟩).events.map
      PipelineProgress.progress) = true :=
  runPipeline_progress_monotone allWritesFailEnv ⟨[], []⟩ (by decide)

/-- C9 counterexample: on a run whose merge stage fails, the emitted
progress sequence is 5, 15, 35, 0 — the terminal error event resets the
percentage to 0, so the progress values are not monotonically increasing
across the emitted sequence, contrary to the claim. -/
theorem runPipeline_progress_monotone_cex :
    monoProg ((runPipeline mergeFailsEnv ⟨[], []⟩).events.map
      PipelineProgress.progress) = false := by
  decide

/-- C8: graph writes are best-effort.  For every run whose remote stages
succeed and that is not aborted — with the write-result components of the
environment (`elemNodeOk`, `elemNodeId`, `conceptNode`, `nodesFetchOk`)
left completely unconstrained — the run completes: no error is raised, the
session is finally marked `completed`, every element and concept node
upsert is attempted (one call per element and per concept, independent of
any write failures), and all stages are invoked.  In particular a failed
individual node or edge write never causes the session to be marked
`failed`. -/
theorem runPipeline_best_effort (env : PipelineEnv) (input : PipelineInput)
    (cs1 cs2 : List ClientConcept) (mr : MergeApiResult)
    (tr : Bool × List String)
    (habort : ∀ i, env.abortFlag i = false)
    (hd1 : env.d1Extract = .ok cs1) (hd2 : env.d2Extract = .ok cs2)
    (hm : env.mergeCall = .ok mr) (ht : env.tessCall = .ok tr)
    (hv : env.vennCall = .ok ()) :
    (runPipeline env input).error = none
      ∧ (runPipeline env input).statusUpdates.getLast?
        = some ("completed", some "completed")
      ∧ (runPipeline env input).nodeCalls
        = input.d1Elements.map d1NodeParams ++ input.d2Elements.map d2NodeParams
          ++ graphNodeCalls mr.mergedConcepts mr.unmergedD1Concepts
            mr.unmergedD2Concepts
      ∧ (runPipeline env input).stagesCalled = allStageCalls := by
  refine ⟨?_, ?_, ?_, ?_⟩ <;>
    simp [runPipeline, habort 1, habort 2, habort 3, habort 4, habort 5,
      hd1, hd2, hm, ht, hv, allStageCalls]

/-- C8 witness: the best-effort theorem at a run in which every single
graph write fails (`elemNodeOk` false everywhere, every concept upsert
returns no row, the node fetch returns null): the run still completes. -/
theorem runPipeline_best_effort_witness :
    (runPipeline allWritesFailEnv edgesWitnessInput).error = none
      ∧ (runPipeline allWritesFailEnv edgesWitnessInput).statusUpdates.getLast?
        = some ("completed", some "completed")
      ∧ (runPipeline allWritesFailEnv edgesWitnessInput).nodeCalls
        = edgesWitnessInput.d1Elements.map d1NodeParams
          ++ edgesWitnessInput.d2Elements.map d2NodeParams
          ++ graphNodeCalls [⟨"M", "", [], [], ["x"], ["y"]⟩] [] []
      ∧ (runPipeline allWritesFailEnv edgesWitnessInput).stagesCalled
        = allStageCalls :=
  runPipeline_best_effort allWritesFailEnv edgesWitnessInput [] []
    ⟨[⟨"M", "", [], [], ["x"], ["y"]⟩], [], []⟩ (false, [])
    (fun _ => rfl) rfl rfl rfl rfl rfl

theorem runPipeline_edgeCalls_eq (env : PipelineEnv) (input : PipelineInput)
    (mr : MergeApiResult) {cs1 cs2 : List ClientConcept}
    (h1 : env.abortFlag 1 = false) (h2 : env.abortFlag 2 = false)
    (h3 : env.abortFlag 3 = false)
    (hd1 : env.d1Extract = .ok cs1) (hd2 : env.d2Extract = .ok cs2)
    (hm : env.mergeCall = .ok mr) :
    (runPipeline env input).edgeCalls
      = graphEdgeCalls env
          (if env.nodesFetchOk then some (sessionElementRows env input)
            else none)
          mr.mergedConcepts mr.unmergedD1Concepts mr.unmergedD2Concepts := by
  cases h4 : env.abortFlag 4 with
  | true => simp [runPipeline, h1, h2, h3, hd1, hd2, hm, h4, failTrace]
  | false =>
    cases ht : env.tessCall with
    | error m => simp [runPipeline, h1, h2, h3, hd1, hd2, hm, h4, ht, failTrace]
    | ok tr =>
      cases h5 : env.abortFlag 5 with
      | true =>
        simp [runPipeline, h1, h2, h3, hd1, hd2, hm, h4, ht, h5, failTrace]
      | false =>
        cases hv : env.vennCall with
        | error m =>
          simp [runPipeline, h1, h2, h3, hd1, hd2, hm, h4, ht, h5, hv, failTrace]
        | ok u =>
          simp [runPipeline, h1, h2, h3, hd1, hd2, hm, h4, ht, h5, hv]

theorem sessionElementRows_types (env : PipelineEnv) (input : PipelineInput) :
    ∀ n ∈ sessionElementRows env input,
      n.node_type = "d1_element" ∨ n.node_type = "d2_element" := by
  intro n hn
  rcases List.mem_append.mp hn with h | h <;>
    obtain ⟨e, _, rfl⟩ := List.mem_map.mp h
  · exact Or.inl rfl
  · exact Or.inr rfl

theorem edgesForIds_mem {ns : List NodeRow} {cid ty : String}
    {ids : List String} :
    ∀ e ∈ edgesForIds (some ns) cid ty ids,
      ∃ n ∈ ns, e = (⟨n.id, cid, ty, ty⟩ : EdgeCall) := by
  intro e he
  obtain ⟨x, _, hmap⟩ := List.mem_filterMap.mp he
  cases hfind : findNode (some ns) x with
  | none => rw [hfind] at hmap; cases hmap
  | some n =>
    rw [hfind] at hmap
    obtain rfl : (⟨n.id, cid, ty, ty⟩ : EdgeCall) = e := by simpa using hmap
    exact ⟨n, List.mem_of_find?_eq_some hfind, rfl⟩

theorem edgesForIds_complete {ns : List NodeRow} {cid ty x : String}
    {ids : List String} {n : NodeRow} (hx : x ∈ ids)
    (hf : findNode (some ns) x = some n) :
    (⟨n.id, cid, ty, ty⟩ : EdgeCall) ∈ edgesForIds (some ns) cid ty ids :=
  List.mem_filterMap.mpr ⟨x, hx, by rw [hf]; rfl⟩

/-- C7: shape and provenance of every graph edge a (fresh-session) run
creates, given that the run reaches the graph phase and the session-node
fetch returns data: (a) every created edge runs from an element node of
the session (node type `d1_element` or `d2_element`) to a node id returned
by a concept-node upsert (node type `concept`), with edge type `defines`
or `implements` — never from a concept node and never between two element
nodes; (b)–(e) every id contributed from Dataset 1 (merged concepts'
`d1Ids`, gap concepts' elements) whose element node resolves gets exactly
the `defines` edge, and every id contributed from Dataset 2 (merged
concepts' `d2Ids`, orphan concepts' elements) gets the `implements`
edge. -/
theorem runPipeline_edges_shape (env : PipelineEnv) (input : PipelineInput)
    (mr : MergeApiResult) {cs1 cs2 : List ClientConcept}
    (h1 : env.abortFlag 1 = false) (h2 : env.abortFlag 2 = false)
    (h3 : env.abortFlag 3 = false)
    (hd1 : env.d1Extract = .ok cs1) (hd2 : env.d2Extract = .ok cs2)
    (hm : env.mergeCall = .ok mr) (hn : env.nodesFetchOk = true) :
    (∀ e ∈ (runPipeline env input).edgeCalls,
      (∃ n ∈ sessionElementRows env input, e.source_node_id = n.id
        ∧ (n.node_type = "d1_element" ∨ n.node_type = "d2_element"))
      ∧ (∃ p : NodeParams, p.node_type = "concept"
          ∧ env.conceptNode p = some e.target_node_id)
      ∧ (e.edge_type = "defines" ∨ e.edge_type = "implements"))
    ∧ (∀ c ∈ mr.mergedConcepts, ∀ cid,
        env.conceptNode (mergedConceptNodeParams c) = some cid →
        ∀ x ∈ c.d1Ids, ∀ n,
          findNode (some (sessionElementRows env input)) x = some n →
          (⟨n.id, cid, "defines", "defines"⟩ : EdgeCall)
            ∈ (runPipeline env input).edgeCalls)
    ∧ (∀ c ∈ mr.mergedConcepts, ∀ cid,
        env.conceptNode (mergedConceptNodeParams c) = some cid →
        ∀ x ∈ c.d2Ids, ∀ n,
          findNode (some (sessionElementRows env input)) x = some n →
          (⟨n.id, cid, "implements", "implements"⟩ : EdgeCall)
            ∈ (runPipeline env input).edgeCalls)
    ∧ (∀ c ∈ mr.unmergedD1Concepts, ∀ cid,
        env.conceptNode (gapNodeParams c) = some cid →
        ∀ x ∈ c.elementIds, ∀ n,
          findNode (some (sessionElementRows env input)) x = some n →
          (⟨n.id, cid, "defines", "defines"⟩ : EdgeCall)
            ∈ (runPipeline env input).edgeCalls)
    ∧ (∀ c ∈ mr.unmergedD2Concepts, ∀ cid,
        env.conceptNode (orphanNodeParams c) = some cid →
        ∀ x ∈ c.elementIds, ∀ n,
          findNode (some (sessionElementRows env input)) x = some n →
          (⟨n.id, cid, "implements", "implements"⟩ : EdgeCall)
            ∈ (runPipeline env input).edgeCalls) := by
  have hE : (runPipeline env input).edgeCalls
      = graphEdgeCalls env (some (sessionElementRows env input))
        mr.mergedConcepts mr.unmergedD1Concepts mr.unmergedD2Concepts := by
    rw [runPipeline_edgeCalls_eq env input mr h1 h2 h3 hd1 hd2 hm, hn]
    exact rfl
  rw [hE]
  refine ⟨?_, ?_, ?_, ?_, ?_⟩
  · intro e he
    have hsrc : ∃ n ∈ sessionElementRows env input,
        ∃ p : NodeParams, ∃ cid ty, p.node_type = "concept"
          ∧ env.conceptNode p = some cid
          ∧ e = (⟨n.id, cid, ty, ty⟩ : EdgeCall)
          ∧ (ty = "defines" ∨ ty = "implements") := by
      rw [graphEdgeCalls] at he
      rcases List.mem_append.mp he with he' | he'
      rcases List.mem_append.mp he' with he'' | he''
      · obtain ⟨l, hl, hel⟩ := List.mem_flatten.mp he''
        obtain ⟨c, _, rfl⟩ := List.mem_map.mp hl
        rw [conceptEdgesOf] at hel
        cases hcn : env.conceptNode (mergedConceptNodeParams c) with
        | none => rw [hcn] at hel; cases hel
        | some cid =>
          rw [hcn] at hel
          rcases List.mem_append.mp hel with hel' | hel'
          · obtain ⟨n, hnm, rfl⟩ := edgesForIds_mem _ hel'
            exact ⟨n, hnm, mergedConceptNodeParams c, cid, "defines",
              rfl, hcn, rfl, Or.inl rfl⟩
          · obtain ⟨n, hnm, rfl⟩ := edgesForIds_mem _ hel'
            exact ⟨n, hnm, mergedConceptNodeParams c, cid, "implements",
              rfl, hcn, rfl, Or.inr rfl⟩
      · obtain ⟨l, hl, hel⟩ := List.mem_flatten.mp he''
        obtain ⟨c, _, rfl⟩ := List.mem_map.mp hl
        rw [gapEdgesOf] at hel
        cases hcn : env.conceptNode (gapNodeParams c) with
        | none => rw [hcn] at hel; cases hel
        | some cid =>
          rw [hcn] at hel
          obtain ⟨n, hnm, rfl⟩ := edgesForIds_mem _ hel
          exact ⟨n, hnm, gapNodeParams c, cid, "defines",
            rfl, hcn, rfl, Or.inl rfl⟩
      · obtain ⟨l, hl, hel⟩ := List.mem_flatten.mp he'
        obtain ⟨c, _, rfl⟩ := List.mem_map.mp hl
        rw [orphanEdgesOf] at hel
        cases hcn : env.conceptNode (orphanNodeParams c) with
        | none => rw [hcn] at hel; cases hel
        | some cid =>
          rw [hcn] at hel
          obtain ⟨n, hnm, rfl⟩ := edgesForIds_mem _ hel
          exact ⟨n, hnm, orphanNodeParams c, cid, "implements",
            rfl, hcn, rfl, Or.inr rfl⟩
    obtain ⟨n, hnm, p, cid, ty, hp, hcn, rfl, hty⟩ := hsrc
    exact ⟨⟨n, hnm, rfl, sessionElementRows_types env input n hnm⟩,
      ⟨p, hp, hcn⟩, hty⟩
  · intro c hc cid hcn x hx n hf
    rw [graphEdgeCalls]
    refine List.mem_append.mpr (Or.inl (List.mem_append.mpr (Or.inl ?_)))
    refine List.mem_flatten.mpr ⟨conceptEdgesOf env
      (some (sessionElementRows env input)) c, List.mem_map_of_mem _ hc, ?_⟩
    rw [conceptEdgesOf, hcn]
    exact List.mem_append.mpr (Or.inl (edgesForIds_complete hx hf))
  · intro c hc cid hcn x hx n hf
    rw [graphEdgeCalls]
    refine List.mem_append.mpr (Or.inl (List.mem_append.mpr (Or.inl ?_)))
    refine List.mem_flatten.mpr ⟨conceptEdgesOf env
      (some (sessionElementRows env input)) c, List.mem_map_of_mem _ hc, ?_⟩
    rw [conceptEdgesOf, hcn]
    exact List.mem_append.mpr (Or.inr (edgesForIds_complete hx hf))
  · intro c hc cid hcn x hx n hf
    rw [graphEdgeCalls]
    refine List.mem_append.mpr (Or.inl (List.mem_append.mpr (Or.inr ?_)))
    refine List.mem_flatten.mpr ⟨gapEdgesOf env
      (some (sessionElementRows env input)) c, List.mem_map_of_mem _ hc, ?_⟩
    rw [gapEdgesOf, hcn]
    exact edgesForIds_complete hx hf
  · intro c hc cid hcn x hx n hf
    rw [graphEdgeCalls]
    refine List.mem_append.mpr (Or.inr ?_)
    refine List.mem_flatten.mpr ⟨orphanEdgesOf env
      (some (sessionElementRows env input)) c, List.mem_map_of_mem _ hc, ?_⟩
    rw [orphanEdgesOf, hcn]
    exact edgesForIds_complete hx hf

/-- C7 witness: in a concrete run (one D1 element `a1`, one D2 element
`b1`, one merged concept), the edge-shape theorem yields the `defines`
edge from `a1`'s element node and the `implements` edge from `b1`'s
element node to the merged concept's node. -/
theorem runPipeline_edges_shape_witness :
    (⟨"node-a1", "c-M", "defines", "defines"⟩ : EdgeCall)
        ∈ (runPipeline edgesWitnessEnv edgesWitnessInput).edgeCalls
      ∧ (⟨"node-b1", "c-M", "implements", "implements"⟩ : EdgeCall)
        ∈ (runPipeline edgesWitnessEnv edgesWitnessInput).edgeCalls := by
  have h := runPipeline_edges_shape edgesWitnessEnv edgesWitnessInput
    ⟨[⟨"M", "", [], [], ["a1"], ["b1"]⟩], [⟨"G", "", ["a1"]⟩],
      [⟨"O", "", ["b1"]⟩]⟩
    rfl rfl rfl rfl rfl rfl rfl
  exact ⟨h.2.1 ⟨"M", "", [], [], ["a1"], ["b1"]⟩ (by decide) "c-M" (by decide)
      "a1" (by decide) ⟨"node-a1", "d1_element", ["a1"]⟩ (by decide),
    h.2.2.1 ⟨"M", "", [], [], ["a1"], ["b1"]⟩ (by decide) "c-M" (by decide)
      "b1" (by decide) ⟨"node-b1", "d2_element", ["b1"]⟩ (by decide)⟩
